import Mathlib

/-!
Shallow embedding of `src/crates/core/src/backend/curse.rs`: the CurseForge
catalog backend.  Wire integers (`i32`, `i64`, `u32`) are modelled as `Int` or
`Nat`; the `f64` download count is modelled as a rational number; fallible or
panicking code is modelled in the `Option` / `Except` monads.
-/

namespace Curse

/-- Game flavors.  Modelled from the spec: the `GameFlavor` enumeration is
declared in `crate::backend`, outside the provided sources; its variants are
exactly those named by the classifier in `curse.rs`. -/
inductive Flavor where
  | Retail
  | ClassicEra
  | ClassicTbc
  | ClassicWotlk
deriving DecidableEq

/-- Addon source tag.  Modelled from the spec: declared in `crate::backend`;
only `Source::Curse` is used by this backend. -/
inductive Source where
  | Curse
deriving DecidableEq

/-- Wire struct `Module` (`foldername: String`, `fingerprint: i64`). -/
structure Module where
  foldername : String
  fingerprint : Int
deriving DecidableEq

/-- Wire struct `File` (a file summary of `latest_files`). -/
structure File where
  id : Int
  display_name : String
  file_name : String
  file_date : String
  download_url : Option String
  release_type : Nat
  modules : List Module
  is_available : Bool
  game_versions : List String
deriving DecidableEq

/-- Wire struct `LatestFilesIndexes` (one entry of `latest_files_indexes`). -/
structure LatestFilesIndexes where
  game_version : String
  file_id : Int
  filename : String
  release_type : Int
  game_version_type_id : Option Int
deriving DecidableEq

/-- Wire struct `Links`. -/
structure Links where
  website_url : Option String
deriving DecidableEq

/-- Wire struct `Category`. -/
structure Category where
  name : String
deriving DecidableEq

/-- Wire struct `Package` (one raw catalog entry).  `download_count: f64` is
modelled as a rational number. -/
structure Package where
  id : Int
  game_id : Int
  name : String
  slug : String
  summary : String
  download_count : ℚ
  links : Links
  latest_files : List File
  latest_files_indexes : List LatestFilesIndexes
  categories : List Category
deriving DecidableEq

/-- Canonical version record.  Modelled from the spec: `Version` is declared in
`crate::backend`; its fields are the ones assigned in `curse.rs` (`game_version`
is an optional string, per the spec's data model). -/
structure Version where
  game_version : Option String
  flavor : Flavor
  date : String
deriving DecidableEq

/-- Canonical addon record.  Modelled from the spec: `Addon` is declared in
`crate::backend`; its fields are the ones assigned in `curse.rs`
(`number_of_downloads` is an unsigned 64-bit count, modelled as `Nat`). -/
structure Addon where
  id : Int
  name : String
  url : String
  number_of_downloads : Nat
  summary : String
  versions : List Version
  categories : List String
  source : Source
deriving DecidableEq

/-- `fn get_flavor_from_game_version_type_id` of `curse.rs`.  The Rust function
panics on any id outside the four known ones; the panic is modelled as `none`. -/
def get_flavor_from_game_version_type_id (game_id : Int) : Option Flavor :=
  if game_id = 73246 then some Flavor.ClassicTbc
  else if game_id = 67408 then some Flavor.ClassicEra
  else if game_id = 517 then some Flavor.Retail
  else if game_id = 73713 then some Flavor.ClassicWotlk
  else none

/-- The classifier as applied throughout `From<Package> for Addon`: always on
`f.game_version_type_id.unwrap_or(0)`. -/
def flavorOf (f : LatestFilesIndexes) : Option Flavor :=
  get_flavor_from_game_version_type_id (f.game_version_type_id.getD 0)

/-- The eligibility closure of `From<Package> for Addon`:
`(f.release_type == 1 || f.release_type == 2) && f.game_version_type_id.unwrap_or(0) > 0`. -/
def eligibleFile (f : LatestFilesIndexes) : Bool :=
  (f.release_type == 1 || f.release_type == 2) && decide (0 < f.game_version_type_id.getD 0)

/-- The inner closure of the retention filter, for a candidate `f` and another
eligible entry `b`:
`get_flavor(b.id.unwrap_or(0)) == get_flavor(f.id.unwrap_or(0)) && b.file_id > f.file_id`.
Both classifier calls can panic (modelled as `none`), `b`'s first. -/
def newerSameFlavor (f b : LatestFilesIndexes) : Option Bool := do
  let fb ← flavorOf b
  let ff ← flavorOf f
  pure (fb == ff && decide (f.file_id < b.file_id))

/-- `Iterator::any` where the predicate may panic: elements are inspected in
order and the scan stops at the first `true`. -/
def anyOption (p : α → Option Bool) : List α → Option Bool
  | [] => some false
  | x :: xs => do
    let b ← p x
    if b then pure true else anyOption p xs

/-- `Iterator::filter` collected into a list, where the predicate may panic. -/
def filterOption (p : α → Option Bool) : List α → Option (List α)
  | [] => some []
  | x :: xs => do
    let b ← p x
    let rest ← filterOption p xs
    pure (if b then x :: rest else rest)

/-- `Iterator::map` collected into a list, where the function may panic. -/
def mapOption (f : α → Option β) : List α → Option (List β)
  | [] => some []
  | x :: xs => do
    let y ← f x
    let ys ← mapOption f xs
    pure (y :: ys)

/-- The retention predicate of `From<Package> for Addon`: keep `f` iff no entry
of `files_cloned` has the same flavor and a strictly greater file id. -/
def retainFile (files_cloned : List LatestFilesIndexes) (f : LatestFilesIndexes) :
    Option Bool := do
  let dropped ← anyOption (newerSameFlavor f) files_cloned
  pure (!dropped)

/-- The per-retained-entry mapping closure of `From<Package> for Addon`: resolve
the date from `latest_files` (first summary whose `id` equals `file_id as i64`,
else the fixed sentinel), then build the `Version`. -/
def versionOfFile (latest_files : List File) (file : LatestFilesIndexes) :
    Option Version := do
  let file_date :=
    match latest_files.find? (fun p => p.id == file.file_id) with
    | some fd => fd.file_date
    | none => "1971-01-01T01:01:01.01Z"
  let fl ← flavorOf file
  pure { game_version := some file.game_version, flavor := fl, date := file_date }

/-- `f64::round`, modelled on rationals: round half away from zero.  Written
with natural-number arithmetic on the reduced `num`/`den` representation so
that it evaluates by kernel reduction; `rustRound_eq_floor` below proves it
equal to the textbook form `⌊q + 1/2⌋` (mirrored for negative values). -/
def rustRound (q : ℚ) : Int :=
  if 0 ≤ q.num then ((2 * q.num.toNat + q.den) / (2 * q.den) : Nat)
  else -(((2 * (-q.num).toNat + q.den) / (2 * q.den) : Nat))

/-- Rust's saturating `as u64` cast applied to an integral value: negative
values clamp to `0`, values at or above `2 ^ 64` clamp to `2 ^ 64 - 1`. -/
def castU64 (r : Int) : Nat :=
  if r < 0 then 0 else min r.toNat (2 ^ 64 - 1)

/-- `package.download_count.round() as u64`. -/
def numberOfDownloads (q : ℚ) : Nat :=
  castU64 (rustRound q)

/-- The `files` local of `From<Package> for Addon`: the eligible subset of
`latest_files_indexes`. -/
def eligibleFiles (package : Package) : List LatestFilesIndexes :=
  package.latest_files_indexes.filter eligibleFile

/-- The retained entries (the `filter` stage of the `versions` pipeline):
eligible entries that are the newest of their flavor.  The cloned list compared
against is the eligible list itself. -/
def retainedFiles (package : Package) : Option (List LatestFilesIndexes) :=
  filterOption (retainFile (eligibleFiles package)) (eligibleFiles package)

/-- `impl From<Package> for Addon`.  A classifier panic anywhere in the pipeline
is modelled as `none`. -/
def addonFromPackage (package : Package) : Option Addon := do
  let retained ← retainedFiles package
  let versions ← mapOption (versionOfFile package.latest_files) retained
  pure {
    id := package.id
    name := package.name
    url := package.links.website_url.getD
      ("https://www.curseforge.com/wow/addons/" ++ package.slug)
    number_of_downloads := numberOfDownloads package.download_count
    summary := package.summary
    versions := versions
    categories := package.categories.map Category.name
    source := Source.Curse }

/-- One page response of the catalog API, as observed by `get_addons`:
a decoded `data` array, a non-success HTTP status (on which the code panics
with the status), or a body that fails to decode (propagated as an error). -/
inductive PageResp where
  | ok (data : List Package)
  | httpFail (status : Nat)
  | decodeFail
deriving DecidableEq

/-- The failure outcomes of `get_addons`.  The Rust code panics on a
non-success status, on an unknown game-version-type id, and on a missing API
key; it returns `Err` on a decode failure.  All four are modelled as error
values carrying what the code reports. -/
inductive CurseError where
  | panicUnsupportedGameId
  | panicStatus (status : Nat)
  | decodeError
  | panicNoApiKey
deriving DecidableEq

/-- The `while page_size == number_of_addons` loop of `get_addons`, against an
abstract server `oracle` mapping a request offset (`index`) to its response.
Fuel bounds the number of iterations (the Rust loop has no bound; `none` means
the fuel ran out before the loop terminated).  Returns the number of requests
issued together with the outcome. -/
def getAddonsAux (oracle : Nat → PageResp) :
    Nat → Nat → Nat → List Addon → Option (Nat × Except CurseError (List Addon))
  | 0, _, _, _ => none
  | fuel + 1, index, lastCount, addons =>
    if 50 = lastCount then
      match oracle index with
      | PageResp.ok data =>
        match mapOption addonFromPackage data with
        | some pageAddons =>
          match getAddonsAux oracle fuel (index + 50) pageAddons.length
              (addons ++ pageAddons) with
          | some (n, r) => some (n + 1, r)
          | none => none
        | none => some (1, Except.error CurseError.panicUnsupportedGameId)
      | PageResp.httpFail s => some (1, Except.error (CurseError.panicStatus s))
      | PageResp.decodeFail => some (1, Except.error CurseError.decodeError)
    else
      some (0, Except.ok addons)

/-- `pub async fn get_addons`: missing API key is fatal before any request;
otherwise run the pagination loop with `index = 0`, `page_size = 50` and
`number_of_addons` initialised to `page_size`. -/
def get_addons (apiKey : Option String) (oracle : Nat → PageResp) (fuel : Nat) :
    Option (Nat × Except CurseError (List Addon)) :=
  match apiKey with
  | some _ => getAddonsAux oracle fuel 0 50 []
  | none => some (0, Except.error CurseError.panicNoApiKey)

/-! Arithmetic facts about the rounding model. -/

lemma floor_half_natDiv (q : ℚ) (h : 0 ≤ q.num) :
    (((2 * q.num.toNat + q.den) / (2 * q.den) : ℕ) : ℤ) = ⌊q + 1/2⌋ := by
  have hd : (q.den : ℚ) ≠ 0 := by
    exact_mod_cast q.den_nz
  have hnum : ((q.num.toNat : ℤ)) = q.num := Int.toNat_of_nonneg h
  have hn : ((q.num.toNat : ℚ)) = (q.num : ℚ) := by
    exact_mod_cast congrArg (fun z : ℤ => (z : ℚ)) hnum
  have hqq : (q.num : ℚ) = q * q.den := (div_eq_iff hd).mp (Rat.num_div_den q)
  have hq : ((2 * q.num.toNat + q.den : ℕ) : ℚ) / ((2 * q.den : ℕ) : ℚ) = q + 1/2 := by
    push_cast [hn]
    field_simp
    linear_combination (4:ℚ) * hqq
  rw [← hq, Rat.floor_natCast_div_natCast]
  exact Int.ofNat_div _ _

/-- The rounding model agrees with the textbook round-half-away-from-zero. -/
lemma rustRound_eq_floor (q : ℚ) :
    rustRound q = if 0 ≤ q then ⌊q + 1/2⌋ else -⌊-q + 1/2⌋ := by
  rw [rustRound]
  by_cases h : 0 ≤ q.num
  · rw [if_pos h, if_pos (Rat.num_nonneg.mp h)]
    exact floor_half_natDiv q h
  · have hq : ¬ 0 ≤ q := fun hh => h (Rat.num_nonneg.mpr hh)
    rw [if_neg h, if_neg hq]
    have h2 : 0 ≤ (-q).num := by
      rw [Rat.neg_num]
      omega
    have hfl := floor_half_natDiv (-q) h2
    rw [Rat.neg_num, Rat.neg_den] at hfl
    rw [hfl]

/-! Generic facts about the panicking-iterator combinators. -/

lemma anyOption_eq_of (p : α → Option Bool) (pb : α → Bool) :
    ∀ l : List α, (∀ x ∈ l, p x = some (pb x)) → anyOption p l = some (l.any pb)
  | [], _ => rfl
  | x :: xs, h => by
    have hx := h x (List.mem_cons_self x xs)
    have hrest := anyOption_eq_of p pb xs (fun y hy => h y (List.mem_cons_of_mem x hy))
    by_cases hb : pb x
    · simp [anyOption, hx, hb]
    · simp [anyOption, hx, hb, hrest]

lemma anyOption_eq_some_false (p : α → Option Bool) :
    ∀ l : List α, anyOption p l = some false → ∀ x ∈ l, p x = some false
  | [], _, x, hx => absurd hx (List.not_mem_nil x)
  | y :: ys, h, x, hx => by
    rw [anyOption] at h
    match hp : p y with
    | none => rw [hp] at h; exact absurd h (by simp)
    | some true => rw [hp] at h; exact absurd h (by simp)
    | some false =>
      rw [hp] at h
      simp only [Option.bind_eq_bind, Option.some_bind, if_neg Bool.false_ne_true] at h
      rcases List.mem_cons.mp hx with rfl | hmem
      · exact hp
      · exact anyOption_eq_some_false p ys (by simpa using h) x hmem

lemma anyOption_isSome (p : α → Option Bool) :
    ∀ l : List α, (∀ x ∈ l, (p x).isSome) → (anyOption p l).isSome
  | [], _ => rfl
  | x :: xs, h => by
    have hx := h x (List.mem_cons_self x xs)
    match hp : p x with
    | none => rw [hp] at hx; exact absurd hx (by simp)
    | some true => simp [anyOption, hp]
    | some false =>
      have := anyOption_isSome p xs (fun y hy => h y (List.mem_cons_of_mem x hy))
      simpa [anyOption, hp] using this

lemma filterOption_eq_of (p : α → Option Bool) (pb : α → Bool) :
    ∀ l : List α, (∀ x ∈ l, p x = some (pb x)) → filterOption p l = some (l.filter pb)
  | [], _ => rfl
  | x :: xs, h => by
    have hx := h x (List.mem_cons_self x xs)
    have hrest := filterOption_eq_of p pb xs (fun y hy => h y (List.mem_cons_of_mem x hy))
    by_cases hb : pb x
    · simp [filterOption, hx, hrest, List.filter_cons, hb]
    · simp [filterOption, hx, hrest, List.filter_cons, hb]

lemma filterOption_sublist (p : α → Option Bool) :
    ∀ {l : List α} {r : List α}, filterOption p l = some r → r.Sublist l
  | [], r, h => by
    rw [filterOption] at h
    cases h
    exact List.Sublist.refl []
  | x :: xs, r, h => by
    rw [filterOption] at h
    match hp : p x with
    | none => rw [hp] at h; exact absurd h (by simp)
    | some b =>
      rw [hp] at h
      simp only [Option.bind_eq_bind, Option.some_bind] at h
      match hrest : filterOption p xs with
      | none => rw [hrest] at h; exact absurd h (by simp)
      | some rs =>
        rw [hrest] at h
        simp only [Option.some_bind] at h
        have hsub := filterOption_sublist p hrest
        cases b with
        | true =>
          cases h
          exact List.Sublist.cons₂ x hsub
        | false =>
          cases h
          exact List.Sublist.cons x hsub

lemma filterOption_mem_true (p : α → Option Bool) :
    ∀ {l : List α} {r : List α}, filterOption p l = some r → ∀ x ∈ r, p x = some true
  | [], r, h, x, hx => by
    rw [filterOption] at h
    cases h
    exact absurd hx (List.not_mem_nil x)
  | y :: ys, r, h, x, hx => by
    rw [filterOption] at h
    match hp : p y with
    | none => rw [hp] at h; exact absurd h (by simp)
    | some b =>
      rw [hp] at h
      simp only [Option.bind_eq_bind, Option.some_bind] at h
      match hrest : filterOption p ys with
      | none => rw [hrest] at h; exact absurd h (by simp)
      | some rs =>
        rw [hrest] at h
        simp only [Option.some_bind] at h
        cases b with
        | true =>
          cases h
          rcases List.mem_cons.mp hx with rfl | hmem
          · exact hp
          · exact filterOption_mem_true p hrest x hmem
        | false =>
          cases h
          exact filterOption_mem_true p hrest x hx

lemma filterOption_isSome (p : α → Option Bool) :
    ∀ l : List α, (∀ x ∈ l, (p x).isSome) → (filterOption p l).isSome
  | [], _ => rfl
  | x :: xs, h => by
    have hx := h x (List.mem_cons_self x xs)
    have hrest := filterOption_isSome p xs (fun y hy => h y (List.mem_cons_of_mem x hy))
    match hp : p x, hr : filterOption p xs with
    | none, _ => rw [hp] at hx; exact absurd hx (by simp)
    | some b, none => rw [hr] at hrest; exact absurd hrest (by simp)
    | some b, some rs => simp [filterOption, hp, hr]

lemma mapOption_forall2 (f : α → Option β) :
    ∀ {l : List α} {l2 : List β}, mapOption f l = some l2 →
      List.Forall₂ (fun a b => f a = some b) l l2
  | [], l2, h => by
    rw [mapOption] at h
    cases h
    exact List.Forall₂.nil
  | x :: xs, l2, h => by
    rw [mapOption] at h
    match hp : f x with
    | none => rw [hp] at h; exact absurd h (by simp)
    | some y =>
      rw [hp] at h
      simp only [Option.bind_eq_bind, Option.some_bind] at h
      match hrest : mapOption f xs with
      | none => rw [hrest] at h; exact absurd h (by simp)
      | some ys =>
        rw [hrest] at h
        simp only [Option.some_bind] at h
        cases h
        exact List.Forall₂.cons hp (mapOption_forall2 f hrest)

lemma mapOption_length (f : α → Option β) {l : List α} {l2 : List β}
    (h : mapOption f l = some l2) : l2.length = l.length :=
  ((mapOption_forall2 f h).length_eq).symm

lemma mapOption_isSome (f : α → Option β) :
    ∀ l : List α, (∀ x ∈ l, (f x).isSome) → (mapOption f l).isSome
  | [], _ => rfl
  | x :: xs, h => by
    have hx := h x (List.mem_cons_self x xs)
    have hrest := mapOption_isSome f xs (fun y hy => h y (List.mem_cons_of_mem x hy))
    match hp : f x, hr : mapOption f xs with
    | none, _ => rw [hp] at hx; exact absurd hx (by simp)
    | some y, none => rw [hr] at hrest; exact absurd hrest (by simp)
    | some y, some ys => simp [mapOption, hp, hr]

lemma mapOption_append (f : α → Option β) :
    ∀ {l1 l2 : List α} {r1 r2 : List β}, mapOption f l1 = some r1 →
      mapOption f l2 = some r2 → mapOption f (l1 ++ l2) = some (r1 ++ r2)
  | [], l2, r1, r2, h1, h2 => by
    rw [mapOption] at h1
    cases h1
    simpa using h2
  | x :: xs, l2, r1, r2, h1, h2 => by
    rw [mapOption] at h1
    match hp : f x with
    | none => rw [hp] at h1; exact absurd h1 (by simp)
    | some y =>
      rw [hp] at h1
      simp only [Option.bind_eq_bind, Option.some_bind] at h1
      match hrest : mapOption f xs with
      | none => rw [hrest] at h1; exact absurd h1 (by simp)
      | some ys =>
        rw [hrest] at h1
        simp only [Option.some_bind] at h1
        cases h1
        have := mapOption_append f hrest h2
        simp [mapOption, hp, this]

lemma forall2_mem_right {R : α → β → Prop} :
    ∀ {l : List α} {l2 : List β}, List.Forall₂ R l l2 → ∀ b ∈ l2, ∃ a ∈ l, R a b := by
  intro l l2 h
  induction h with
  | nil => intro b hb; exact absurd hb (List.not_mem_nil b)
  | cons hR _ ih =>
    intro b hb
    rcases List.mem_cons.mp hb with rfl | hmem
    · exact ⟨_, List.mem_cons_self _ _, hR⟩
    · rcases ih b hmem with ⟨a, ha, hab⟩
      exact ⟨a, List.mem_cons_of_mem _ ha, hab⟩

lemma forall2_pairwise {R : α → β → Prop} {S : α → α → Prop} {S2 : β → β → Prop}
    (hcompat : ∀ a a2 b b2, R a b → R a2 b2 → S a a2 → S2 b b2) :
    ∀ {l : List α} {l2 : List β}, List.Forall₂ R l l2 → List.Pairwise S l →
      List.Pairwise S2 l2 := by
  intro l l2 h
  induction h with
  | nil => intro _; exact List.Pairwise.nil
  | @cons a b as bs hR htail ih =>
    intro hp
    rcases List.pairwise_cons.mp hp with ⟨hhead, htl⟩
    refine List.pairwise_cons.mpr ⟨?_, ih htl⟩
    intro b2 hb2
    rcases forall2_mem_right htail b2 hb2 with ⟨a2, ha2, hR2⟩
    exact hcompat a a2 b b2 hR hR2 (hhead a2 ha2)

/-! Facts about the selection pipeline. -/

/-- The pure (non-panicking) counterpart of `newerSameFlavor`, comparing the
classifier outputs as optional values. -/
def argNewer (f b : LatestFilesIndexes) : Bool :=
  (flavorOf b == flavorOf f) && decide (f.file_id < b.file_id)

lemma newerSameFlavor_eq_of {f b : LatestFilesIndexes}
    (hb : (flavorOf b).isSome) (hf : (flavorOf f).isSome) :
    newerSameFlavor f b = some (argNewer f b) := by
  rcases Option.isSome_iff_exists.mp hb with ⟨vb, hvb⟩
  rcases Option.isSome_iff_exists.mp hf with ⟨vf, hvf⟩
  simp [newerSameFlavor, argNewer, hvb, hvf]

lemma newerSameFlavor_some_false {f b : LatestFilesIndexes}
    (h : newerSameFlavor f b = some false) :
    ∃ fb ff, flavorOf b = some fb ∧ flavorOf f = some ff ∧
      ¬(fb = ff ∧ f.file_id < b.file_id) := by
  rw [newerSameFlavor] at h
  match hb : flavorOf b with
  | none => rw [hb] at h; exact absurd h (by simp)
  | some vb =>
    rw [hb] at h
    simp only [Option.bind_eq_bind, Option.some_bind] at h
    match hf : flavorOf f with
    | none => rw [hf] at h; exact absurd h (by simp)
    | some vf =>
      rw [hf] at h
      simp only [Option.some_bind, Option.some.injEq] at h
      refine ⟨vb, vf, rfl, rfl, ?_⟩
      intro ⟨heq, hlt⟩
      rw [heq] at h
      simp [hlt] at h

lemma retainFile_eq_of {l : List LatestFilesIndexes} {f : LatestFilesIndexes}
    (hl : ∀ g ∈ l, (flavorOf g).isSome) (hf : (flavorOf f).isSome) :
    retainFile l f = some (!l.any (argNewer f)) := by
  have := anyOption_eq_of (newerSameFlavor f) (argNewer f) l
    (fun b hb => newerSameFlavor_eq_of (hl b hb) hf)
  simp [retainFile, this]

lemma retainedFiles_eq_of {p : Package}
    (h : ∀ g ∈ eligibleFiles p, (flavorOf g).isSome) :
    retainedFiles p =
      some ((eligibleFiles p).filter (fun f => !(eligibleFiles p).any (argNewer f))) := by
  exact filterOption_eq_of _ _ _ (fun f hf => retainFile_eq_of h (h f hf))

lemma retainFile_some_true {l : List LatestFilesIndexes} {f : LatestFilesIndexes}
    (h : retainFile l f = some true) : ∀ b ∈ l, newerSameFlavor f b = some false := by
  rw [retainFile] at h
  match ha : anyOption (newerSameFlavor f) l with
  | none => rw [ha] at h; exact absurd h (by simp)
  | some b =>
    rw [ha] at h
    simp only [Option.bind_eq_bind, Option.some_bind, Option.some.injEq] at h
    cases b with
    | true => simp at h
    | false => exact anyOption_eq_some_false _ l ha

lemma versionOfFile_elim {lf : List File} {f : LatestFilesIndexes} {v : Version}
    (h : versionOfFile lf f = some v) :
    ∃ fl, flavorOf f = some fl ∧
      v = { game_version := some f.game_version, flavor := fl,
            date := match lf.find? (fun p => p.id == f.file_id) with
                    | some fd => fd.file_date
                    | none => "1971-01-01T01:01:01.01Z" } := by
  rw [versionOfFile] at h
  match hf : flavorOf f with
  | none => rw [hf] at h; exact absurd h (by simp)
  | some fl =>
    rw [hf] at h
    simp only [Option.bind_eq_bind, Option.some_bind, Option.pure_def,
      Option.some.injEq] at h
    exact ⟨fl, rfl, h.symm⟩

lemma versionOfFile_isSome {lf : List File} {f : LatestFilesIndexes}
    (h : (flavorOf f).isSome) : (versionOfFile lf f).isSome := by
  rcases Option.isSome_iff_exists.mp h with ⟨fl, hfl⟩
  simp [versionOfFile, hfl]

lemma addonFromPackage_elim {p : Package} {a : Addon}
    (h : addonFromPackage p = some a) :
    ∃ r vs, retainedFiles p = some r ∧
      mapOption (versionOfFile p.latest_files) r = some vs ∧
      a = { id := p.id
            name := p.name
            url := p.links.website_url.getD
              ("https://www.curseforge.com/wow/addons/" ++ p.slug)
            number_of_downloads := numberOfDownloads p.download_count
            summary := p.summary
            versions := vs
            categories := p.categories.map Category.name
            source := Source.Curse } := by
  rw [addonFromPackage] at h
  match hr : retainedFiles p with
  | none => rw [hr] at h; exact absurd h (by simp)
  | some r =>
    rw [hr] at h
    simp only [Option.bind_eq_bind, Option.some_bind] at h
    match hm : mapOption (versionOfFile p.latest_files) r with
    | none => rw [hm] at h; exact absurd h (by simp)
    | some vs =>
      rw [hm] at h
      simp only [Option.some_bind, Option.pure_def, Option.some.injEq] at h
      exact ⟨r, vs, rfl, hm, h.symm⟩

lemma retained_mem_eligible {p : Package} {r : List LatestFilesIndexes}
    (h : retainedFiles p = some r) : ∀ f ∈ r, f ∈ eligibleFiles p :=
  fun f hf => (filterOption_sublist _ h).mem hf

lemma mapOption_append_elim (f : α → Option β) :
    ∀ {l1 l2 : List α} {out : List β}, mapOption f (l1 ++ l2) = some out →
      ∃ o1 o2, mapOption f l1 = some o1 ∧ mapOption f l2 = some o2 ∧ out = o1 ++ o2
  | [], l2, out, h => ⟨[], out, rfl, by simpa using h, rfl⟩
  | x :: xs, l2, out, h => by
    rw [List.cons_append, mapOption] at h
    match hp : f x with
    | none => rw [hp] at h; exact absurd h (by simp)
    | some y =>
      rw [hp] at h
      simp only [Option.bind_eq_bind, Option.some_bind] at h
      match hrest : mapOption f (xs ++ l2) with
      | none => rw [hrest] at h; exact absurd h (by simp)
      | some ys =>
        rw [hrest] at h
        simp only [Option.bind_eq_bind, Option.some_bind, Option.pure_def,
          Option.some.injEq] at h
        rcases mapOption_append_elim f hrest with ⟨o1, o2, h1, h2, rfl⟩
        refine ⟨y :: o1, o2, ?_, h2, by rw [← h]; rfl⟩
        simp [mapOption, hp, h1]

/-! Concrete fixtures used by the witnesses below. -/

def wE1 : LatestFilesIndexes := ⟨"1.0", 1, "a", 1, some 517⟩

def wE2 : LatestFilesIndexes := ⟨"2.0", 2, "b", 1, some 517⟩

def wPkg : Package := ⟨7, 1, "n", "s", "sum", 0, ⟨none⟩, [], [wE1, wE2], []⟩

def wVersion : Version := ⟨some "2.0", Flavor.Retail, "1971-01-01T01:01:01.01Z"⟩

def wAddon : Addon :=
  ⟨7, "n", "https://www.curseforge.com/wow/addons/s", 0, "sum", [wVersion], [], Source.Curse⟩

/-! The claims. -/

/-- C1: for a catalog entry whose eligible file-index entries all carry known
game-variant-type ids, an eligible entry is retained by the version-selection
filter iff no other eligible entry shares its flavor and has a strictly greater
file id (a groupwise arg-max: the retained entry's file id is the maximum among
all eligible entries of its flavor). -/
theorem c1_groupwise_argmax (p : Package) (r : List LatestFilesIndexes)
    (f : LatestFilesIndexes)
    (hknown : ∀ g ∈ eligibleFiles p, (flavorOf g).isSome)
    (hr : retainedFiles p = some r) (hf : f ∈ eligibleFiles p) :
    f ∈ r ↔ ∀ b ∈ eligibleFiles p, flavorOf b = flavorOf f → b.file_id ≤ f.file_id := by
  have heq := retainedFiles_eq_of hknown
  have hreq : r = (eligibleFiles p).filter
      (fun g => !(eligibleFiles p).any (argNewer g)) :=
    Option.some.inj (hr.symm.trans heq)
  rw [hreq, List.mem_filter, and_iff_right hf, Bool.not_eq_true', List.any_eq_false]
  constructor
  · intro hall b hb hflav
    have := hall b hb
    simp only [argNewer, Bool.and_eq_true, beq_iff_eq, decide_eq_true_eq, not_and,
      not_lt, hflav] at this
    exact this trivial
  · intro hall b hb
    simp only [argNewer, Bool.and_eq_true, beq_iff_eq, decide_eq_true_eq, not_and, not_lt]
    intro hflav
    exact hall b hb hflav

/-- C1 witness: in a catalog entry with two Retail-flavored eligible entries of
file ids 1 and 2, the entry with id 2 (the group maximum) is the retained one. -/
theorem c1_groupwise_argmax_witness :
    wE2 ∈ [wE2] ↔
      ∀ b ∈ eligibleFiles wPkg, flavorOf b = flavorOf wE2 →
        b.file_id ≤ wE2.file_id :=
  c1_groupwise_argmax wPkg [wE2] wE2 (by decide) (by decide) (by decide)

/-- C2: if a catalog entry's file-index entries have pairwise-distinct file
ids, the versions of the mapped addon have pairwise-distinct flavors. -/
theorem c2_distinct_flavors (p : Package) (a : Addon)
    (hids : p.latest_files_indexes.Pairwise (fun x y => x.file_id ≠ y.file_id))
    (h : addonFromPackage p = some a) :
    a.versions.Pairwise (fun v w => v.flavor ≠ w.flavor) := by
  obtain ⟨r, vs, hr, hm, ha⟩ := addonFromPackage_elim h
  have hav : a.versions = vs := by rw [ha]
  rw [hav]
  have hsub : r.Sublist p.latest_files_indexes :=
    (filterOption_sublist _ hr).trans (List.filter_sublist _)
  have hidsr : r.Pairwise (fun x y => x.file_id ≠ y.file_id) := hids.sublist hsub
  have hflavr : r.Pairwise (fun x y => flavorOf x ≠ flavorOf y) := by
    refine hidsr.imp_of_mem ?_
    intro x y hx hy hne hflav
    have hxe := retained_mem_eligible hr x hx
    have hye := retained_mem_eligible hr y hy
    have hxt := filterOption_mem_true _ hr x hx
    have hyt := filterOption_mem_true _ hr y hy
    have hxy := retainFile_some_true hxt y hye
    have hyx := retainFile_some_true hyt x hxe
    rcases newerSameFlavor_some_false hxy with ⟨fy, fx, hfy, hfx, hnot1⟩
    rcases newerSameFlavor_some_false hyx with ⟨fx2, fy2, hfx2, hfy2, hnot2⟩
    have hfyfx : fy = fx := by
      rw [hflav] at hfx
      exact Option.some.inj (hfy.symm.trans hfx)
    have h1 : y.file_id ≤ x.file_id := by
      by_contra hc
      exact hnot1 ⟨hfyfx, lt_of_not_le hc⟩
    have hfx2fy2 : fx2 = fy2 := by
      rw [hflav] at hfx2
      exact Option.some.inj (hfx2.symm.trans hfy2)
    have h2 : x.file_id ≤ y.file_id := by
      by_contra hc
      exact hnot2 ⟨hfx2fy2.symm ▸ hfx2fy2, lt_of_not_le hc⟩
    exact hne (le_antisymm h2 h1)
  refine forall2_pairwise ?_ (mapOption_forall2 _ hm) hflavr
  intro x x2 v v2 hv hv2 hS hveq
  rcases versionOfFile_elim hv with ⟨flx, hflx, rfl⟩
  rcases versionOfFile_elim hv2 with ⟨flx2, hflx2, rfl⟩
  apply hS
  rw [hflx, hflx2]
  exact congrArg some hveq

def c2E1 : LatestFilesIndexes := ⟨"1.0", 1, "a", 1, some 517⟩

def c2E2 : LatestFilesIndexes := ⟨"2.0", 2, "b", 2, some 67408⟩

def c2Pkg : Package := ⟨8, 1, "m", "t", "su", 0, ⟨none⟩, [], [c2E1, c2E2], []⟩

def c2Addon : Addon :=
  ⟨8, "m", "https://www.curseforge.com/wow/addons/t", 0, "su",
    [⟨some "1.0", Flavor.Retail, "1971-01-01T01:01:01.01Z"⟩,
     ⟨some "2.0", Flavor.ClassicEra, "1971-01-01T01:01:01.01Z"⟩], [], Source.Curse⟩

/-- C2 witness: a catalog entry with a Retail release file and a ClassicEra
beta file maps to an addon whose two versions carry distinct flavors. -/
theorem c2_distinct_flavors_witness :
    c2Addon.versions.Pairwise (fun v w => v.flavor ≠ w.flavor) :=
  c2_distinct_flavors c2Pkg c2Addon (by decide) (by decide)

def c3Entry : LatestFilesIndexes := ⟨"1.0", 10, "x", 1, some (-1)⟩

def c3Pkg : Package := ⟨3, 1, "n", "my", "s", 0, ⟨none⟩, [], [c3Entry], []⟩

/-- C3 counterexample: a release-typed entry whose game-variant-type id is
present and non-zero (namely `-1`) is nevertheless dropped by the filter, which
requires the id to be strictly positive; the entry contributes no version. -/
theorem c3_counterexample :
    (c3Entry.release_type = 1 ∨ c3Entry.release_type = 2) ∧
    c3Entry.game_version_type_id = some (-1) ∧ ((-1 : Int) ≠ 0) ∧
    eligibleFile c3Entry = false ∧
    Option.map Addon.versions (addonFromPackage c3Pkg) = some [] := by decide

/-- C3 (amended): the participating subset is exactly the entries whose
release-type code is 1 or 2 AND whose game-variant-type id is present and
strictly positive; every version of the mapped addon arises from such an
entry. -/
theorem c3_eligibility :
    (∀ f : LatestFilesIndexes,
      eligibleFile f = true ↔
        ((f.release_type = 1 ∨ f.release_type = 2) ∧
          ∃ i, f.game_version_type_id = some i ∧ 0 < i)) ∧
    (∀ p a, addonFromPackage p = some a → ∀ v ∈ a.versions,
      ∃ g ∈ p.latest_files_indexes, eligibleFile g = true ∧
        v.game_version = some g.game_version) := by
  constructor
  · intro f
    match hg : f.game_version_type_id with
    | none => simp [eligibleFile, hg]
    | some i =>
      simp only [eligibleFile, hg, Option.getD_some, Bool.and_eq_true, Bool.or_eq_true,
        beq_iff_eq, decide_eq_true_eq, Option.some.injEq]
      constructor
      · intro ⟨h1, h2⟩
        exact ⟨h1, i, rfl, h2⟩
      · intro ⟨h1, j, hj, hpos⟩
        exact ⟨h1, hj ▸ hpos⟩
  · intro p a h v hv
    obtain ⟨r, vs, hr, hm, ha⟩ := addonFromPackage_elim h
    have hav : a.versions = vs := by rw [ha]
    rw [hav] at hv
    rcases forall2_mem_right (mapOption_forall2 _ hm) v hv with ⟨g, hg, hgv⟩
    have hge := retained_mem_eligible hr g hg
    rcases List.mem_filter.mp hge with ⟨hgmem, hgel⟩
    rcases versionOfFile_elim hgv with ⟨fl, _, rfl⟩
    exact ⟨g, hgmem, hgel, rfl⟩

/-- C3 witness: applying the amended characterisation to a concrete catalog
entry whose single retained file has game-version string "2.0". -/
theorem c3_eligibility_witness :
    ∃ g ∈ wPkg.latest_files_indexes, eligibleFile g = true ∧
      (some "2.0" : Option String) = some g.game_version :=
  c3_eligibility.2 wPkg wAddon (by decide) wVersion (by decide)

def c4Pkg : Package := ⟨9, 1, "n", "my-addon", "s", 0, ⟨some ""⟩, [], [], []⟩

/-- C4 counterexample: a present-but-empty website URL is used verbatim (the
code tests only presence, not non-emptiness), so the mapped url is the empty
string rather than the fallback URL built from the slug "my-addon". -/
theorem c4_counterexample :
    c4Pkg.links.website_url = some "" ∧ c4Pkg.slug = "my-addon" ∧
    Option.map Addon.url (addonFromPackage c4Pkg) = some "" ∧
    ("" : String) ≠ "https://www.curseforge.com/wow/addons/my-addon" := by decide

/-- C4 (amended): the mapped url equals the website URL whenever that field is
present (even when it is the empty string), and otherwise equals the fallback
URL built from the fixed base path and the entry's slug. -/
theorem c4_url_resolution :
    (∀ p a u, addonFromPackage p = some a → p.links.website_url = some u →
      a.url = u) ∧
    (∀ p a, addonFromPackage p = some a → p.links.website_url = none →
      a.url = "https://www.curseforge.com/wow/addons/" ++ p.slug) := by
  constructor
  · intro p a u h hu
    obtain ⟨r, vs, hr, hm, ha⟩ := addonFromPackage_elim h
    rw [ha]
    simp [hu]
  · intro p a h hu
    obtain ⟨r, vs, hr, hm, ha⟩ := addonFromPackage_elim h
    rw [ha]
    simp [hu]

/-- C4 witness: a catalog entry with no website URL and slug "s" resolves to
the fixed-base fallback URL containing "s". -/
theorem c4_url_resolution_witness :
    wAddon.url = "https://www.curseforge.com/wow/addons/" ++ wPkg.slug :=
  c4_url_resolution.2 wPkg wAddon (by decide) rfl

def c5Pkg : Package := ⟨11, 1, "n", "s", "d", (2:ℚ)^64, ⟨none⟩, [], [], []⟩

/-- C5 counterexample: a wire value of `2 ^ 64` rounds to `2 ^ 64`, but the
saturating `as u64` cast makes the mapped download count `2 ^ 64 - 1`, so the
count is not always the wire value rounded to the nearest integer. -/
theorem c5_counterexample :
    rustRound ((2:ℚ)^64) = 2^64 ∧
    Option.map Addon.number_of_downloads (addonFromPackage c5Pkg) =
      some (2^64 - 1) ∧
    ((2:Nat)^64 - 1) ≠ 2^64 := by decide

/-- C5 (amended): the mapped download count is the wire value rounded to the
nearest integer and clamped into the unsigned 64-bit range: negative wire
values map to 0, values of at most `2 ^ 64 - 1` are rounded to within one half
(never negative, the result being a natural number), values at or above
`2 ^ 64` saturate to `2 ^ 64 - 1`; in particular `1234.9` maps to `1235` and
`-3.0` maps to `0`. -/
theorem c5_download_count :
    (∀ p a, addonFromPackage p = some a →
      a.number_of_downloads = numberOfDownloads p.download_count) ∧
    (∀ q : ℚ, q < 0 → numberOfDownloads q = 0) ∧
    (∀ q : ℚ, 0 ≤ q → q ≤ 2 ^ 64 - 1 →
      |(numberOfDownloads q : ℚ) - q| ≤ 1 / 2) ∧
    (∀ q : ℚ, (2:ℚ) ^ 64 ≤ q → numberOfDownloads q = 2 ^ 64 - 1) ∧
    numberOfDownloads ((12349 : ℚ) / 10) = 1235 ∧
    numberOfDownloads (-3) = 0 := by
  refine ⟨?_, ?_, ?_, ?_, ?_, by decide⟩
  · intro p a h
    obtain ⟨r, vs, hr, hm, ha⟩ := addonFromPackage_elim h
    rw [ha]
  · intro q hq
    have hfl : 0 ≤ ⌊-q + 1/2⌋ := Int.floor_nonneg.mpr (by linarith)
    rw [numberOfDownloads, rustRound_eq_floor, if_neg (not_le.mpr hq), castU64]
    by_cases hz : -⌊-q + 1/2⌋ < 0
    · rw [if_pos hz]
    · rw [if_neg hz]
      have h0 : -⌊-q + 1/2⌋ = 0 := by omega
      rw [h0]
      simp
  · intro q hq0 hqle
    have hround : rustRound q = ⌊q + 1/2⌋ := by
      rw [rustRound_eq_floor, if_pos hq0]
    have hfl0 : 0 ≤ ⌊q + 1/2⌋ := Int.floor_nonneg.mpr (by linarith)
    have hflhi : ⌊q + 1/2⌋ ≤ 2 ^ 64 - 1 := by
      have : ⌊q + 1/2⌋ < (2:ℤ) ^ 64 := Int.floor_lt.mpr (by push_cast; linarith)
      omega
    have hcast : numberOfDownloads q = (⌊q + 1/2⌋).toNat := by
      rw [numberOfDownloads, hround, castU64, if_neg (not_lt.mpr hfl0)]
      exact min_eq_left (Int.toNat_le.mpr hflhi)
    rw [hcast]
    have hq1 : ((⌊q + 1/2⌋).toNat : ℚ) = ((⌊q + 1/2⌋ : ℤ) : ℚ) := by
      exact_mod_cast congrArg (fun z : ℤ => (z : ℚ)) (Int.toNat_of_nonneg hfl0)
    rw [hq1]
    have hle := Int.floor_le (q + 1/2)
    have hgt := Int.sub_one_lt_floor (q + 1/2)
    rw [abs_le]
    constructor <;> [linarith; linarith]
  · intro q hq
    have hfl : (2:ℤ) ^ 64 ≤ ⌊q + 1/2⌋ := Int.le_floor.mpr (by push_cast; linarith)
    have hq0 : (0:ℚ) ≤ q := le_trans (by norm_num) hq
    rw [numberOfDownloads, rustRound_eq_floor, if_pos hq0, castU64,
      if_neg (not_lt.mpr (by omega))]
    have : 2 ^ 64 - 1 ≤ (⌊q + 1/2⌋).toNat := by omega
    omega
  · have hmk : (12349 : ℚ) / 10 = mkRat 12349 10 := by
      rw [Rat.mkRat_eq_div]
      norm_num
    rw [hmk]
    decide

/-- C5 witness: the amended rounding bounds applied at the wire values `-1`
and `7`. -/
theorem c5_download_count_witness :
    numberOfDownloads (-1) = 0 ∧ |(numberOfDownloads 7 : ℚ) - 7| ≤ 1 / 2 :=
  ⟨c5_download_count.2.1 (-1) (by norm_num),
   c5_download_count.2.2.1 7 (by norm_num) (by norm_num)⟩

/-- C6: resolving a retained entry's date never fails: when no file summary's
id matches the entry's file id the fixed sentinel is used, and when a matching
summary exists its date is used; the mapper applies exactly this resolution to
every retained entry. -/
theorem c6_date_fallback :
    (∀ (lf : List File) (f : LatestFilesIndexes), (flavorOf f).isSome →
      (versionOfFile lf f).isSome) ∧
    (∀ (lf : List File) (f : LatestFilesIndexes) (v : Version),
      versionOfFile lf f = some v →
      ((∀ s ∈ lf, s.id ≠ f.file_id) → v.date = "1971-01-01T01:01:01.01Z") ∧
      (∀ s, lf.find? (fun x => x.id == f.file_id) = some s → v.date = s.file_date)) ∧
    (∀ p a, addonFromPackage p = some a → ∃ r, retainedFiles p = some r ∧
      mapOption (versionOfFile p.latest_files) r = some a.versions) := by
  refine ⟨?_, ?_, ?_⟩
  · intro lf f h
    exact versionOfFile_isSome h
  · intro lf f v h
    rcases versionOfFile_elim h with ⟨fl, hfl, rfl⟩
    constructor
    · intro hnone
      have hfind : lf.find? (fun x => x.id == f.file_id) = none := by
        rw [List.find?_eq_none]
        intro x hx
        simp only [beq_iff_eq]
        exact hnone x hx
      simp [hfind]
    · intro s hs
      simp [hs]
  · intro p a h
    obtain ⟨r, vs, hr, hm, ha⟩ := addonFromPackage_elim h
    have hav : a.versions = vs := by rw [ha]
    rw [hav]
    exact ⟨r, hr, hm⟩

/-- C6 witness: with an empty file-summary list, the retained entry's version
carries the fixed sentinel date. -/
theorem c6_date_fallback_witness :
    wVersion.date = "1971-01-01T01:01:01.01Z" :=
  (c6_date_fallback.2.1 [] wE2 wVersion (by decide)).1
    (fun s hs => absurd hs (List.not_mem_nil s))

/-! The pagination loop against a scripted server. -/

def trivPackage : Package := ⟨0, 1, "a", "a", "", 0, ⟨none⟩, [], [], []⟩

def trivAddon : Addon :=
  ⟨0, "a", "https://www.curseforge.com/wow/addons/a", 0, "", [], [], Source.Curse⟩

def c7OracleA : Nat → PageResp := fun index =>
  if index < 100 then PageResp.ok (List.replicate 50 trivPackage)
  else PageResp.ok (List.replicate 37 trivPackage)

def c7OracleB : Nat → PageResp := fun index =>
  if index < 150 then PageResp.ok (List.replicate 50 trivPackage)
  else PageResp.ok []

def c7OracleC : Nat → PageResp := fun _ => PageResp.ok [trivPackage]

lemma getAddonsAux_script (oracle : Nat → PageResp) :
    ∀ (ps : List (List Package)) (fuel index : Nat) (acc : List Addon)
      (out : List Addon),
      ps ≠ [] → ps.length < fuel →
      (∀ i, i < ps.length → oracle (index + 50 * i) = PageResp.ok (ps.getD i [])) →
      (∀ i, i + 1 < ps.length → (ps.getD i []).length = 50) →
      (∀ i, i + 1 = ps.length → (ps.getD i []).length < 50) →
      mapOption addonFromPackage ps.flatten = some out →
      getAddonsAux oracle fuel index 50 acc = some (ps.length, Except.ok (acc ++ out)) := by
  intro ps
  induction ps with
  | nil => intro fuel index acc out hne; exact absurd rfl hne
  | cons l rest ih =>
    intro fuel index acc out _ hfuel horacle hfull hlast hmap
    obtain ⟨fu, rfl⟩ : ∃ fu, fuel = fu + 1 := ⟨fuel - 1, by omega⟩
    have h0 : oracle index = PageResp.ok l := by
      have := horacle 0 (by simp)
      simpa using this
    rw [List.flatten_cons] at hmap
    rcases mapOption_append_elim _ hmap with ⟨o1, o2, hm1, hm2, rfl⟩
    have hlen1 : o1.length = l.length := mapOption_length _ hm1
    rw [getAddonsAux, if_pos rfl, h0]
    simp only [hm1]
    cases rest with
    | nil =>
      have hshort : l.length < 50 := by
        have := hlast 0 (by simp)
        simpa using this
      have hm2nil : o2 = [] := by
        simpa [mapOption] using hm2.symm
      obtain ⟨fv, rfl⟩ : ∃ fv, fu = fv + 1 := ⟨fu - 1, by simp at hfuel; omega⟩
      rw [getAddonsAux, if_neg (by omega : ¬ 50 = o1.length)]
      simp [hm2nil, hlen1]
    | cons r1 r2 =>
      have hfulll : l.length = 50 := by
        have := hfull 0 (by simp)
        simpa using this
      have hrec := ih fu (index + 50) (acc ++ o1) o2 (by simp)
        (by simp at hfuel ⊢; omega)
        (by
          intro i hi
          have := horacle (i + 1) (by simp at hi ⊢; omega)
          have harith : index + 50 * (i + 1) = index + 50 + 50 * i := by ring
          rw [harith] at this
          simpa using this)
        (by
          intro i hi
          have := hfull (i + 1) (by simp at hi ⊢; omega)
          simpa using this)
        (by
          intro i hi
          have := hlast (i + 1) (by simp at hi ⊢; omega)
          simpa using this)
        hm2
      rw [← hlen1] at hfulll
      rw [hfulll, hrec]
      simp [List.append_assoc]


/-- C7: for every script of successful pages in which every page but the last
holds exactly 50 entries and the last fewer than 50, the fetch issues one
request per page at offsets 0, 50, 100, ... and stops exactly after the first
short page, returning the concatenation of all mapped entries; in particular
page sizes [50, 50, 37] give 3 requests and 137 entries, [50, 50, 50, 0] give
4 requests, and a short first page terminates after one request. -/
theorem c7_pagination :
    (∀ (key : String) (oracle : Nat → PageResp) (ps : List (List Package))
      (fuel : Nat) (out : List Addon),
      ps ≠ [] → ps.length < fuel →
      (∀ i, i < ps.length → oracle (50 * i) = PageResp.ok (ps.getD i [])) →
      (∀ i, i + 1 < ps.length → (ps.getD i []).length = 50) →
      (∀ i, i + 1 = ps.length → (ps.getD i []).length < 50) →
      mapOption addonFromPackage ps.flatten = some out →
      get_addons (some key) oracle fuel = some (ps.length, Except.ok out)) ∧
    get_addons (some "k") c7OracleA 4 =
      some (3, Except.ok (List.replicate 137 trivAddon)) ∧
    get_addons (some "k") c7OracleB 5 =
      some (4, Except.ok (List.replicate 150 trivAddon)) ∧
    get_addons (some "k") c7OracleC 2 = some (1, Except.ok [trivAddon]) := by
  refine ⟨?_, rfl, rfl, rfl⟩
  intro key oracle ps fuel out hne hfuel horacle hfull hlast hmap
  have := getAddonsAux_script oracle ps fuel 0 [] out hne hfuel
    (by intro i hi; simpa using horacle i hi) hfull hlast hmap
  simpa [get_addons] using this

def c7OracleW : Nat → PageResp := fun _ => PageResp.ok []

/-- C7 witness: a script whose single page is empty (shorter than 50)
terminates after exactly one request with no entries. -/
theorem c7_pagination_witness :
    get_addons (some "w") c7OracleW 2 = some (1, Except.ok []) := by
  have h := c7_pagination.1 "w" c7OracleW [[]] 2 [] (by simp) (by simp)
    (by
      intro i hi
      have : i = 0 := by simpa using hi
      subst this
      rfl)
    (by
      intro i hi
      simp at hi)
    (by
      intro i hi
      have : i = 0 := by simpa using hi
      subst this
      simp)
    rfl
  simpa using h

lemma getAddonsAux_script_fail (oracle : Nat → PageResp) :
    ∀ (ps : List (List Package)) (s fuel index : Nat) (acc : List Addon),
      ps.length < fuel →
      (∀ i, i < ps.length → oracle (index + 50 * i) = PageResp.ok (ps.getD i [])) →
      (∀ i, i < ps.length → (ps.getD i []).length = 50) →
      (∀ l ∈ ps, (mapOption addonFromPackage l).isSome) →
      oracle (index + 50 * ps.length) = PageResp.httpFail s →
      getAddonsAux oracle fuel index 50 acc =
        some (ps.length + 1, Except.error (CurseError.panicStatus s)) := by
  intro ps
  induction ps with
  | nil =>
    intro s fuel index acc hfuel _ _ _ hfail
    obtain ⟨fu, rfl⟩ : ∃ fu, fuel = fu + 1 := ⟨fuel - 1, by omega⟩
    have h0 : oracle index = PageResp.httpFail s := by
      simpa using hfail
    rw [getAddonsAux, if_pos rfl, h0]
    rfl
  | cons l rest ih =>
    intro s fuel index acc hfuel horacle hfull hmap hfail
    obtain ⟨fu, rfl⟩ : ∃ fu, fuel = fu + 1 := ⟨fuel - 1, by omega⟩
    have h0 : oracle index = PageResp.ok l := by
      simpa using horacle 0 (by simp)
    have hl : (mapOption addonFromPackage l).isSome :=
      hmap l (List.mem_cons_self l rest)
    rcases Option.isSome_iff_exists.mp hl with ⟨o1, hm1⟩
    have hlen1 : o1.length = 50 := by
      rw [mapOption_length _ hm1]
      simpa using hfull 0 (by simp)
    have hrec := ih s fu (index + 50) (acc ++ o1)
      (by simp at hfuel ⊢; omega)
      (by
        intro i hi
        have := horacle (i + 1) (by simp at hi ⊢; omega)
        have harith : index + 50 * (i + 1) = index + 50 + 50 * i := by ring
        rw [harith] at this
        simpa using this)
      (by
        intro i hi
        have := hfull (i + 1) (by simp at hi ⊢; omega)
        simpa using this)
      (fun l2 hl2 => hmap l2 (List.mem_cons_of_mem l hl2))
      (by
        have harith : index + 50 * (l :: rest).length =
            index + 50 + 50 * rest.length := by
          simp only [List.length_cons]
          ring
        rw [harith] at hfail
        exact hfail)
    rw [getAddonsAux, if_pos rfl, h0]
    simp only [hm1]
    rw [hlen1, hrec]
    simp

/-- C8: for every fetch in which some page responds with a non-success HTTP
status — after any number k of full, successfully decoded pages, k = 0 covering
a failure on the very first request — the fetch stops after exactly k + 1
requests and reports a single fatal outcome carrying the status; the entries
mapped from the earlier pages are discarded, never returned. -/
theorem c8_failure_atomic (key : String) (oracle : Nat → PageResp)
    (ps : List (List Package)) (s fuel : Nat)
    (hfuel : ps.length < fuel)
    (horacle : ∀ i, i < ps.length → oracle (50 * i) = PageResp.ok (ps.getD i []))
    (hfull : ∀ i, i < ps.length → (ps.getD i []).length = 50)
    (hmap : ∀ l ∈ ps, (mapOption addonFromPackage l).isSome)
    (hfail : oracle (50 * ps.length) = PageResp.httpFail s) :
    get_addons (some key) oracle fuel =
      some (ps.length + 1, Except.error (CurseError.panicStatus s)) := by
  have := getAddonsAux_script_fail oracle ps s fuel 0 [] hfuel
    (by intro i hi; simpa using horacle i hi)
    hfull hmap (by simpa using hfail)
  simpa [get_addons] using this

def c8Oracle : Nat → PageResp := fun index =>
  if index = 0 then PageResp.ok (List.replicate 50 trivPackage)
  else PageResp.httpFail 500

/-- C8 witness: a concrete three-page fetch whose second page answers
status 500 (one full page before the failure) yields exactly the fatal outcome
carrying 500 after two requests. -/
theorem c8_failure_atomic_witness :
    get_addons (some "w") c8Oracle 3 =
      some (2, Except.error (CurseError.panicStatus 500)) := by
  have h := c8_failure_atomic "w" c8Oracle [List.replicate 50 trivPackage] 500 3
    (by simp)
    (by
      intro i hi
      have : i = 0 := by simpa using hi
      subst this
      rfl)
    (by
      intro i hi
      have : i = 0 := by simpa using hi
      subst this
      simp)
    (by
      intro l2 hl2
      have : l2 = List.replicate 50 trivPackage := by simpa using hl2
      subst this
      rfl)
    rfl
  simpa using h

lemma newerSameFlavor_isSome {f b : LatestFilesIndexes}
    (hb : (flavorOf b).isSome) (hf : (flavorOf f).isSome) :
    (newerSameFlavor f b).isSome := by
  rcases Option.isSome_iff_exists.mp hb with ⟨vb, hvb⟩
  rcases Option.isSome_iff_exists.mp hf with ⟨vf, hvf⟩
  simp [newerSameFlavor, hvb, hvf]

lemma addonFromPackage_isSome {p : Package}
    (h : ∀ f ∈ eligibleFiles p, (flavorOf f).isSome) :
    (addonFromPackage p).isSome := by
  have hret : (retainedFiles p).isSome := by
    refine filterOption_isSome _ _ ?_
    intro f hf
    rw [retainFile]
    have := anyOption_isSome (newerSameFlavor f) (eligibleFiles p)
      (fun b hb => newerSameFlavor_isSome (h b hb) (h f hf))
    rcases Option.isSome_iff_exists.mp this with ⟨b, hb⟩
    simp [hb]
  rcases Option.isSome_iff_exists.mp hret with ⟨r, hr⟩
  have hmap : (mapOption (versionOfFile p.latest_files) r).isSome := by
    refine mapOption_isSome _ _ ?_
    intro f hf
    exact versionOfFile_isSome (h f (retained_mem_eligible hr f hf))
  rcases Option.isSome_iff_exists.mp hmap with ⟨vs, hvs⟩
  simp [addonFromPackage, hr, hvs]

/-- C9: the flavor classifier is a fixed closed lookup: 517 maps to Retail,
67408 to ClassicEra, 73246 to ClassicTbc, 73713 to ClassicWotlk, and every
other id reaches the fatal branch (modelled as `none`); when every eligible
entry of a catalog entry carries a known id, mapping the entry never reaches
the fatal branch. -/
theorem c9_flavor_classifier :
    get_flavor_from_game_version_type_id 517 = some Flavor.Retail ∧
    get_flavor_from_game_version_type_id 67408 = some Flavor.ClassicEra ∧
    get_flavor_from_game_version_type_id 73246 = some Flavor.ClassicTbc ∧
    get_flavor_from_game_version_type_id 73713 = some Flavor.ClassicWotlk ∧
    (∀ i : Int, i ≠ 517 → i ≠ 67408 → i ≠ 73246 → i ≠ 73713 →
      get_flavor_from_game_version_type_id i = none) ∧
    (∀ p : Package, (∀ f ∈ eligibleFiles p, (flavorOf f).isSome) →
      (addonFromPackage p).isSome) := by
  refine ⟨rfl, rfl, rfl, rfl, ?_, ?_⟩
  · intro i h1 h2 h3 h4
    rw [get_flavor_from_game_version_type_id, if_neg h3, if_neg h2, if_neg h1, if_neg h4]
  · intro p h
    exact addonFromPackage_isSome h

/-- C9 witness: the unknown id 9999 reaches the fatal branch, while the
concrete catalog entry with known ids maps without reaching it. -/
theorem c9_flavor_classifier_witness :
    get_flavor_from_game_version_type_id 9999 = none ∧
    (addonFromPackage wPkg).isSome :=
  ⟨c9_flavor_classifier.2.2.2.2.1 9999 (by decide) (by decide) (by decide) (by decide),
   c9_flavor_classifier.2.2.2.2.2 wPkg (by decide)⟩

/-- C10: every version in a mapped addon has its optional game-version field
populated: it equals `some` of the game-version string of an eligible
file-index entry of the catalog entry, never `none`. -/
theorem c10_game_version_present (p : Package) (a : Addon)
    (h : addonFromPackage p = some a) :
    ∀ v ∈ a.versions, v.game_version ≠ none ∧
      ∃ f ∈ eligibleFiles p, v.game_version = some f.game_version := by
  intro v hv
  obtain ⟨r, vs, hr, hm, ha⟩ := addonFromPackage_elim h
  have hav : a.versions = vs := by rw [ha]
  rw [hav] at hv
  rcases forall2_mem_right (mapOption_forall2 _ hm) v hv with ⟨g, hg, hgv⟩
  rcases versionOfFile_elim hgv with ⟨fl, _, rfl⟩
  exact ⟨by simp, g, retained_mem_eligible hr g hg, rfl⟩

/-- C10 witness: the single version of the concrete mapped addon carries the
game-version string "2.0" of its retained entry. -/
theorem c10_game_version_present_witness :
    wVersion.game_version ≠ none ∧
      ∃ f ∈ eligibleFiles wPkg, wVersion.game_version = some f.game_version :=
  c10_game_version_present wPkg wAddon (by decide) wVersion (by decide)

end Curse
